import Mathlib

/-!
Verification of the status worker pool in pilot/pkg/status/resourcelock.go.

The development shallowly embeds the Go source: the WorkQueue (tasks slice
plus cache map) becomes a structure with a list and a function-valued map,
the WorkerPool worker loop becomes a small-step transition relation whose
atomic steps are exactly the lock-protected regions of the source, and the
per-task get/merge/write path becomes the pure function processTask.
Go maps keyed by pointers are represented by association lists keyed by
natural-number identities, with map assignment replacing in place.
-/

set_option maxHeartbeats 1000000

namespace ResourceLock

/-- Modelled from the spec: the resource-type descriptor
(k8s schema.GroupVersionResource), defined outside the provided sources.
Three string fields, structural equality. -/
structure GroupVersionResource where
  Group : String
  Version : String
  Resource : String
deriving DecidableEq

/-- Modelled from the spec: the full Resource reference, defined outside the
provided sources.  Spec section 3: a resource-type descriptor, namespace,
name, and a generation that is the string form of an integer; equality is
structural and the zero value is the not-found sentinel. -/
structure Resource where
  GroupVersionResource : GroupVersionResource
  Namespace : String
  Name : String
  Generation : String
deriving DecidableEq

/-- The zero value of Resource, used by the worker loop as the
nothing-to-do sentinel (compare resourcelock.go line 193). -/
def zeroResource : Resource :=
  { GroupVersionResource := { Group := "", Version := "", Resource := "" },
    Namespace := "", Name := "", Generation := "" }

/-- lockResource from resourcelock.go lines 50-54: the canonical key,
the Resource with its generation dropped. -/
structure LockResource where
  GroupVersionResource : GroupVersionResource
  Namespace : String
  Name : String
deriving DecidableEq

/-- convert from resourcelock.go lines 56-62. -/
def convert (i : Resource) : LockResource :=
  { GroupVersionResource := i.GroupVersionResource,
    Namespace := i.Namespace,
    Name := i.Name }

/-- IstioStatus payload (istio.io/api/meta/v1alpha1), reduced to the
observed-generation field the pool manipulates plus one abstract field
standing for the rest of the payload. -/
structure IstioStatus where
  ObservedGeneration : Int
  rest : Nat
deriving DecidableEq

/-- A GenerationProvider interface value: nil, or an IstioGenerationProvider
wrapping an IstioStatus (resourcelock.go lines 228-235). -/
inductive GenProvider where
  | nil : GenProvider
  | istio : IstioStatus → GenProvider
deriving DecidableEq

/-- SetObservedGeneration from resourcelock.go lines 237-239.  The source
mutates the wrapped status; the embedding returns the updated provider.
The nil case never arises on the call path (it is only called when
GetOGProvider succeeded). -/
def GenProvider.SetObservedGeneration : GenProvider → Int → GenProvider
  | GenProvider.nil, _ => GenProvider.nil
  | GenProvider.istio s, g => GenProvider.istio { s with ObservedGeneration := g }

/-- A dynamically typed (interface-shaped) value: the nil interface, a
pointer to an IstioStatus, a GenerationProvider value, or any other
progress payload a submitter may push. -/
inductive GoVal where
  | nilVal : GoVal
  | istioStatusRef : IstioStatus → GoVal
  | provider : GenProvider → GoVal
  | payload : Nat → GoVal
deriving DecidableEq

/-- Unwrap from resourcelock.go lines 241-243: returns the wrapped
IstioStatus pointer.  The nil case never arises on the call path. -/
def GenProvider.Unwrap : GenProvider → GoVal
  | GenProvider.nil => GoVal.nilVal
  | GenProvider.istio s => GoVal.istioStatusRef s

/-- The per-submitter pending map, map[*Controller]interface struct in the
source, as an association list keyed by controller identity. -/
abbrev PCS := List (Nat × GoVal)

/-- Go map assignment m[k] = v on an association list: replace the entry
for k in place if present, otherwise add it. -/
def mapSet : PCS → Nat → GoVal → PCS
  | [], k, v => [(k, v)]
  | (k1, v1) :: rest, k, v =>
    if k1 = k then (k, v) :: rest else (k1, v1) :: mapSet rest k v

/-- cacheEntry from resourcelock.go lines 43-48. -/
structure CacheEntry where
  cacheResource : Resource
  perControllerStatus : PCS
deriving DecidableEq

/-- WorkQueue state from resourcelock.go lines 64-73: the pending tasks
slice and the cache map (represented as a function to Option). -/
structure WorkQueue where
  tasks : List LockResource
  cache : LockResource → Option CacheEntry

/-- The empty queue built by NewWorkerPool (resourcelock.go lines 146-150). -/
def emptyQueue : WorkQueue :=
  { tasks := [], cache := fun _ => none }

/-- Push from resourcelock.go lines 75-92: merge into an existing entry
(replacing the pending value of that submitter) or create a fresh entry and
append the key. -/
def WorkQueue.Push (wq : WorkQueue) (target : Resource) (ctl : Nat) (progress : GoVal) :
    WorkQueue :=
  match wq.cache (convert target) with
  | some item =>
      { wq with cache := fun k =>
          if k = convert target then
            some { item with
              perControllerStatus := mapSet item.perControllerStatus ctl progress }
          else wq.cache k }
  | none =>
      { tasks := wq.tasks ++ [convert target],
        cache := fun k =>
          if k = convert target then
            some { cacheResource := target, perControllerStatus := [(ctl, progress)] }
          else wq.cache k }

/-- The exclusion set map[lockResource]struct, as a membership test over the
in-flight list. -/
def exclOf (cw : List LockResource) : LockResource → Bool :=
  fun k => decide (k ∈ cw)

/-- The loop body of Pop (resourcelock.go lines 98-109): scan for the first
key not excluded; remove it from the slice; if its cache entry is missing
return the zero Resource and nil map at once, else return the entry.
Returns the Pop result together with the updated tasks slice. -/
def popAux (cache : LockResource → Option CacheEntry) (excl : LockResource → Bool) :
    List LockResource → (Resource × Option PCS) × List LockResource
  | [] => ((zeroResource, none), [])
  | k :: rest =>
    if excl k then
      let r := popAux cache excl rest
      (r.1, k :: r.2)
    else
      match cache k with
      | none => ((zeroResource, none), rest)
      | some e => ((e.cacheResource, some e.perControllerStatus), rest)

/-- Pop from resourcelock.go lines 95-110. -/
def WorkQueue.Pop (wq : WorkQueue) (excl : LockResource → Bool) :
    (Resource × Option PCS) × WorkQueue :=
  let r := popAux wq.cache excl wq.tasks
  (r.1, { wq with tasks := r.2 })

/-- Delete from resourcelock.go lines 118-122: removes only the cache map
entry; the tasks slice is untouched. -/
def WorkQueue.Delete (wq : WorkQueue) (target : Resource) : WorkQueue :=
  { wq with cache := fun k => if k = convert target then none else wq.cache k }

/-- The retrieval-of-provider error condition. -/
inductive OGErr where
  | noObservedGeneration : OGErr
deriving DecidableEq

/-- Modelled from the spec: GetOGProvider is defined outside the provided
sources.  Spec section 4.3: retrieval of the provider from a raw status
value fails with a no-observed-generation condition when the payload does
not expose the field, and otherwise yields the provider view over it.
On failure the returned provider value is the nil interface. -/
def GetOGProvider : GoVal → Except OGErr GenProvider
  | GoVal.istioStatusRef s => Except.ok (GenProvider.istio s)
  | _ => Except.error OGErr.noObservedGeneration

/-- strconv.FormatInt(g, 10): the decimal string of an integer. -/
def formatInt (i : Int) : String := toString i

/-- config.Config reduced to the fields the pool reads: Generation (int64)
and Status (interface-typed). -/
structure Config where
  generation : Int
  status : GoVal
deriving DecidableEq

/-- One invocation of the injected writer: its two arguments. -/
structure WriteCall where
  cfg : Config
  status : GoVal
deriving DecidableEq

/-- Result of processing one popped task: the writer invocation if one
happened, and whether the no-observed-generation warning was logged.
There is no error channel: no failure on this path reaches the caller. -/
structure TaskResult where
  writeCall : Option WriteCall
  warned : Bool
deriving DecidableEq

/-- The per-task get/check/merge/write path of the worker loop,
resourcelock.go lines 203-220, run outside the lock.  Controllers are
identified by number; fnOf gives each controller its merge function; the
fold order over the per-submitter map fixes one of the iteration orders the
Go map may produce.  On a GetOGProvider failure the source logs a warning
and leaves x at the nil provider returned with the error; the writer is
invoked with the provider value x itself (line 218). -/
def processTask (get : Resource → Option Config)
    (fnOf : Nat → GenProvider → GoVal → GenProvider)
    (target : Resource) (work : PCS) : TaskResult :=
  match get target with
  | none => { writeCall := none, warned := false }
  | some cfg =>
    if formatInt cfg.generation = target.Generation then
      match GetOGProvider cfg.status with
      | Except.error _ =>
          let x := work.foldl (fun x ci => fnOf ci.1 x ci.2) GenProvider.nil
          { writeCall := some { cfg := cfg, status := GoVal.provider x }, warned := true }
      | Except.ok x0 =>
          let x1 := x0.SetObservedGeneration cfg.generation
          let x := work.foldl (fun x ci => fnOf ci.1 x ci.2) x1
          { writeCall := some { cfg := cfg, status := GoVal.provider x }, warned := false }
    else { writeCall := none, warned := false }

/-- The observed-generation field visible in a written status argument, if
any. -/
def observedGenOf : GoVal → Option Int
  | GoVal.istioStatusRef s => some s.ObservedGeneration
  | GoVal.provider (GenProvider.istio s) => some s.ObservedGeneration
  | _ => none

/-- Program position of one worker goroutine in the loop of
maybeAddWorker, resourcelock.go lines 182-224.  atTop is the start of an
iteration before taking the pool lock; checkedTop is after the
closing/length check with the pool lock held; popped is after Pop returned
a nonzero target (lock held); delDone is after the queue Delete (lock
held); working is the get/merge/write section outside the lock. -/
inductive Phase where
  | atTop : Phase
  | checkedTop : Phase
  | popped : Resource → Option PCS → Phase
  | delDone : Resource → Option PCS → Phase
  | working : Resource → Option PCS → Phase
deriving DecidableEq

/-- Whether a worker at this position is inside the pool-lock critical
section of the loop top (between Lock at line 184 and the Unlock at line
196 or 201). -/
def holdsLock : Phase → Bool
  | Phase.checkedTop => true
  | Phase.popped _ _ => true
  | Phase.delDone _ _ => true
  | _ => false

/-- WorkerPool state, resourcelock.go lines 124-138, together with the
positions of the live worker goroutines and the ownership of the pool
lock across the multi-step critical section of the loop top.  Workers are
listed with distinct identities; nextId supplies fresh ones. -/
structure PoolState where
  q : WorkQueue
  currentlyWorking : List LockResource
  workerCount : Nat
  maxWorkers : Nat
  closing : Bool
  workers : List (Nat × Phase)
  nextId : Nat
  lockHolder : Option Nat

/-- The pool built by NewWorkerPool, resourcelock.go lines 140-152. -/
def initState (mw : Nat) : PoolState :=
  { q := emptyQueue, currentlyWorking := [], workerCount := 0, maxWorkers := mw,
    closing := false, workers := [], nextId := 0, lockHolder := none }

/-- Replace the position of worker i. -/
def setPhase (ws : List (Nat × Phase)) (i : Nat) (ph : Phase) : List (Nat × Phase) :=
  ws.map (fun w => if w.1 = i then (i, ph) else w)

/-- One atomic step of the pool.  Each constructor is one lock-protected
region of the source.  Queue operations take only the queue lock, so they
may interleave with a worker that is inside the pool-lock region (which is
why Pop, the queue Delete and the in-flight marking are separate steps);
regions needing the pool lock require it to be free. -/
inductive PStep : PoolState → PoolState → Prop where
  | push (s : PoolState) (t : Resource) (c : Nat) (p : GoVal) :
      PStep s { s with q := s.q.Push t c p }
  | delete (s : PoolState) (t : Resource) :
      PStep s { s with q := s.q.Delete t }
  | setClosing (s : PoolState) (hl : s.lockHolder = none) :
      PStep s { s with closing := true }
  | spawn (s : PoolState) (hl : s.lockHolder = none)
      (hc : s.workerCount < s.maxWorkers) (hq : s.q.tasks ≠ []) :
      PStep s { s with workerCount := s.workerCount + 1,
                       workers := s.workers ++ [(s.nextId, Phase.atTop)],
                       nextId := s.nextId + 1 }
  | exitWorker (s : PoolState) (i : Nat) (hw : (i, Phase.atTop) ∈ s.workers)
      (hl : s.lockHolder = none) (hc : s.closing = true ∨ s.q.tasks = []) :
      PStep s { s with workerCount := s.workerCount - 1,
                       workers := s.workers.filter (fun w => w.1 ≠ i) }
  | enterTop (s : PoolState) (i : Nat) (hw : (i, Phase.atTop) ∈ s.workers)
      (hl : s.lockHolder = none) (hc : s.closing = false) (hq : s.q.tasks ≠ []) :
      PStep s { s with lockHolder := some i,
                       workers := setPhase s.workers i Phase.checkedTop }
  | popZero (s : PoolState) (i : Nat) (hw : (i, Phase.checkedTop) ∈ s.workers)
      (hz : (s.q.Pop (exclOf s.currentlyWorking)).1.1 = zeroResource) :
      PStep s { s with q := (s.q.Pop (exclOf s.currentlyWorking)).2,
                       lockHolder := none,
                       workers := setPhase s.workers i Phase.atTop }
  | popSome (s : PoolState) (i : Nat) (hw : (i, Phase.checkedTop) ∈ s.workers)
      (hz : (s.q.Pop (exclOf s.currentlyWorking)).1.1 ≠ zeroResource) :
      PStep s { s with q := (s.q.Pop (exclOf s.currentlyWorking)).2,
                       workers := setPhase s.workers i
                         (Phase.popped (s.q.Pop (exclOf s.currentlyWorking)).1.1
                                       (s.q.Pop (exclOf s.currentlyWorking)).1.2) }
  | delTarget (s : PoolState) (i : Nat) (t : Resource) (m : Option PCS)
      (hw : (i, Phase.popped t m) ∈ s.workers) :
      PStep s { s with q := s.q.Delete t,
                       workers := setPhase s.workers i (Phase.delDone t m) }
  | mark (s : PoolState) (i : Nat) (t : Resource) (m : Option PCS)
      (hw : (i, Phase.delDone t m) ∈ s.workers) :
      PStep s { s with currentlyWorking := convert t :: s.currentlyWorking,
                       lockHolder := none,
                       workers := setPhase s.workers i (Phase.working t m) }
  | unmark (s : PoolState) (i : Nat) (t : Resource) (m : Option PCS)
      (hw : (i, Phase.working t m) ∈ s.workers) (hl : s.lockHolder = none) :
      PStep s { s with currentlyWorking := s.currentlyWorking.erase (convert t),
                       workers := setPhase s.workers i Phase.atTop }

/-- States of a pool with worker bound mw reachable from the fresh pool. -/
inductive Reach (mw : Nat) : PoolState → Prop where
  | init : Reach mw (initState mw)
  | step {s s2 : PoolState} : Reach mw s → PStep s s2 → Reach mw s2

theorem setPhase_map_fst (ws : List (Nat × Phase)) (i : Nat) (ph : Phase) :
    (setPhase ws i ph).map Prod.fst = ws.map Prod.fst := by
  induction ws with
  | nil => rfl
  | cons w rest ih =>
    simp only [setPhase, List.map_cons] at ih ⊢
    by_cases h : w.1 = i
    · simp [h, ih]
    · simp [h, ih]

theorem setPhase_length (ws : List (Nat × Phase)) (i : Nat) (ph : Phase) :
    (setPhase ws i ph).length = ws.length := by
  simp [setPhase]

theorem mem_setPhase {ws : List (Nat × Phase)} {i : Nat} {ph : Phase} {w : Nat × Phase}
    (h : w ∈ setPhase ws i ph) : (w.1 ≠ i ∧ w ∈ ws) ∨ w = (i, ph) := by
  simp only [setPhase, List.mem_map] at h
  obtain ⟨a, ha, he⟩ := h
  by_cases h1 : a.1 = i
  · right
    rw [if_pos h1] at he
    exact he.symm
  · left
    rw [if_neg h1] at he
    subst he
    exact ⟨h1, ha⟩

theorem mem_setPhase_self {ws : List (Nat × Phase)} {i : Nat} {p0 : Phase} (ph : Phase)
    (h : (i, p0) ∈ ws) : (i, ph) ∈ setPhase ws i ph := by
  simp only [setPhase, List.mem_map]
  exact ⟨(i, p0), h, by simp⟩

theorem key_mem_of_mem {ws : List (Nat × Phase)} {i : Nat} {p : Phase}
    (h : (i, p) ∈ ws) : i ∈ ws.map Prod.fst :=
  List.mem_map.2 ⟨(i, p), h, rfl⟩

theorem nodup_keys_eq {ws : List (Nat × Phase)} (hnd : (ws.map Prod.fst).Nodup)
    {i : Nat} {p q : Phase} (h1 : (i, p) ∈ ws) (h2 : (i, q) ∈ ws) : p = q := by
  induction ws with
  | nil => cases h1
  | cons w rest ih =>
    simp only [List.map_cons, List.nodup_cons] at hnd
    rcases List.mem_cons.1 h1 with he1 | hm1 <;> rcases List.mem_cons.1 h2 with he2 | hm2
    · exact congrArg Prod.snd (he1.trans he2.symm)
    · exact absurd (he1 ▸ key_mem_of_mem hm2) hnd.1
    · exact absurd (he2 ▸ key_mem_of_mem hm1) hnd.1
    · exact ih hnd.2 hm1 hm2

theorem filter_key_eq_self {ws : List (Nat × Phase)} {i : Nat}
    (h : i ∉ ws.map Prod.fst) : ws.filter (fun w => w.1 ≠ i) = ws := by
  induction ws with
  | nil => rfl
  | cons w rest ih =>
    simp only [List.map_cons, List.mem_cons] at h
    push_neg at h
    have hw : (fun w : Nat × Phase => decide (w.1 ≠ i)) w = true := by
      simp [Ne.symm h.1]
    simp only [List.filter_cons]
    rw [if_pos (by simpa using hw)]
    rw [ih h.2]

theorem filter_key_length {ws : List (Nat × Phase)} (hnd : (ws.map Prod.fst).Nodup)
    {i : Nat} {p : Phase} (h : (i, p) ∈ ws) :
    (ws.filter (fun w => w.1 ≠ i)).length + 1 = ws.length := by
  induction ws with
  | nil => cases h
  | cons w rest ih =>
    simp only [List.map_cons, List.nodup_cons] at hnd
    rcases List.mem_cons.1 h with he | hm
    · have hw1 : w.1 = i := by rw [← he]
      simp only [List.filter_cons]
      rw [if_neg (by simp [hw1])]
      rw [filter_key_eq_self (hw1 ▸ hnd.1)]
      simp
    · have hw1 : w.1 ≠ i := by
        intro hx
        exact hnd.1 (hx ▸ key_mem_of_mem hm)
      simp only [List.filter_cons]
      rw [if_pos (by simp [hw1])]
      simp only [List.length_cons]
      rw [← ih hnd.2 hm]

theorem popAux_sublist (cache : LockResource → Option CacheEntry)
    (excl : LockResource → Bool) :
    ∀ ts, List.Sublist ((popAux cache excl ts).2) ts := by
  intro ts
  induction ts with
  | nil => simp [popAux]
  | cons k rest ih =>
    by_cases h : excl k = true
    · simpa [popAux, h] using List.Sublist.cons₂ k ih
    · rw [Bool.not_eq_true] at h
      simp only [popAux, h, Bool.false_eq_true, if_false]
      cases cache k with
      | none => exact (List.Sublist.refl rest).cons k
      | some e => exact (List.Sublist.refl rest).cons k

theorem popAux_spec (cache : LockResource → Option CacheEntry)
    (excl : LockResource → Bool) (ts : List LockResource)
    (h : (popAux cache excl ts).1 ≠ (zeroResource, none)) :
    ∃ k e, excl k = false ∧ cache k = some e ∧
      (popAux cache excl ts).1 = (e.cacheResource, some e.perControllerStatus) := by
  induction ts with
  | nil => exact absurd rfl h
  | cons k rest ih =>
    by_cases hx : excl k = true
    · simp only [popAux, hx, if_true] at h ⊢
      exact ih h
    · rw [Bool.not_eq_true] at hx
      simp only [popAux, hx, Bool.false_eq_true, if_false] at h ⊢
      cases hc : cache k with
      | none => simp [hc] at h
      | some e => exact ⟨k, e, hx, hc, by simp [hc]⟩

theorem pop_some_not_excluded {wq : WorkQueue} {cw : List LockResource}
    (hcoh : ∀ k e, wq.cache k = some e → convert e.cacheResource = k)
    (h : (wq.Pop (exclOf cw)).1 ≠ (zeroResource, none)) :
    convert (wq.Pop (exclOf cw)).1.1 ∉ cw := by
  have h2 : (popAux wq.cache (exclOf cw) wq.tasks).1 ≠ (zeroResource, none) := h
  obtain ⟨k, e, hex, hc, heq⟩ := popAux_spec wq.cache (exclOf cw) wq.tasks h2
  have h3 : (wq.Pop (exclOf cw)).1.1 = e.cacheResource := by
    show (popAux wq.cache (exclOf cw) wq.tasks).1.1 = e.cacheResource
    rw [heq]
  rw [h3, hcoh k e hc]
  simpa [exclOf] using hex

theorem pop_cache_eq (wq : WorkQueue) (excl : LockResource → Bool) :
    ((wq.Pop excl).2).cache = wq.cache := rfl

/-- Coherence of the cache map: every entry is stored at the key of its own
snapshot resource. -/
def Coherent (wq : WorkQueue) : Prop :=
  ∀ k e, wq.cache k = some e → convert e.cacheResource = k

theorem push_cache_hit {wq : WorkQueue} {t : Resource} {item : CacheEntry}
    (hc : wq.cache (convert t) = some item) (c : Nat) (p : GoVal) (k : LockResource) :
    (wq.Push t c p).cache k =
      if k = convert t then
        some { cacheResource := item.cacheResource,
               perControllerStatus := mapSet item.perControllerStatus c p }
      else wq.cache k := by
  unfold WorkQueue.Push
  rw [hc]

theorem push_tasks_hit {wq : WorkQueue} {t : Resource} {item : CacheEntry}
    (hc : wq.cache (convert t) = some item) (c : Nat) (p : GoVal) :
    (wq.Push t c p).tasks = wq.tasks := by
  unfold WorkQueue.Push
  rw [hc]

theorem push_cache_miss {wq : WorkQueue} {t : Resource}
    (hc : wq.cache (convert t) = none) (c : Nat) (p : GoVal) (k : LockResource) :
    (wq.Push t c p).cache k =
      if k = convert t then
        some { cacheResource := t, perControllerStatus := [(c, p)] }
      else wq.cache k := by
  unfold WorkQueue.Push
  rw [hc]

theorem push_tasks_miss {wq : WorkQueue} {t : Resource}
    (hc : wq.cache (convert t) = none) (c : Nat) (p : GoVal) :
    (wq.Push t c p).tasks = wq.tasks ++ [convert t] := by
  unfold WorkQueue.Push
  rw [hc]

theorem delete_cache (wq : WorkQueue) (t : Resource) (k : LockResource) :
    (wq.Delete t).cache k = if k = convert t then none else wq.cache k := rfl

theorem push_coherent {wq : WorkQueue} (h : Coherent wq)
    (t : Resource) (c : Nat) (p : GoVal) : Coherent (wq.Push t c p) := by
  intro k e he
  cases hc : wq.cache (convert t) with
  | some item =>
    rw [push_cache_hit hc c p k] at he
    by_cases hk : k = convert t
    · rw [if_pos hk] at he
      have he2 : e.cacheResource = item.cacheResource := by
        cases he
        rfl
      rw [he2, h (convert t) item hc, hk]
    · rw [if_neg hk] at he
      exact h k e he
  | none =>
    rw [push_cache_miss hc c p k] at he
    by_cases hk : k = convert t
    · rw [if_pos hk] at he
      have he2 : e.cacheResource = t := by
        cases he
        rfl
      rw [he2, hk]
    · rw [if_neg hk] at he
      exact h k e he

theorem delete_coherent {wq : WorkQueue} (h : Coherent wq) (t : Resource) :
    Coherent (wq.Delete t) := by
  intro k e he
  rw [delete_cache] at he
  by_cases hk : k = convert t
  · rw [if_pos hk] at he
    cases he
  · rw [if_neg hk] at he
    exact h k e he

/-- The inductive invariant of the pool.  Beyond cache coherence it records
the bookkeeping that makes mutual exclusion work: identities are distinct
and below nextId; a worker inside the loop-top critical section owns the
pool lock; the worker count matches the number of live workers and is
bounded; a worker that has popped a target but not yet marked it holds a
key not yet in the in-flight set; a worker in the get/merge/write section
has its key in the in-flight set; and distinct workers in that section
hold distinct keys. -/
structure Inv (s : PoolState) : Prop where
  coherent : Coherent s.q
  idsNodup : (s.workers.map Prod.fst).Nodup
  fresh : ∀ w ∈ s.workers, w.1 < s.nextId
  holder : ∀ w ∈ s.workers, holdsLock w.2 = true → s.lockHolder = some w.1
  countEq : s.workerCount = s.workers.length
  bound : s.workerCount ≤ s.maxWorkers
  cwNodup : s.currentlyWorking.Nodup
  poppedFree : ∀ w ∈ s.workers, ∀ t m,
    (w.2 = Phase.popped t m ∨ w.2 = Phase.delDone t m) → convert t ∉ s.currentlyWorking
  workingIn : ∀ w ∈ s.workers, ∀ t m,
    w.2 = Phase.working t m → convert t ∈ s.currentlyWorking
  workingDistinct : ∀ w1 ∈ s.workers, ∀ w2 ∈ s.workers, w1.1 ≠ w2.1 →
    ∀ t1 m1 t2 m2, w1.2 = Phase.working t1 m1 → w2.2 = Phase.working t2 m2 →
      convert t1 ≠ convert t2

theorem inv_init (mw : Nat) : Inv (initState mw) := by
  refine ⟨?_, ?_, ?_, ?_, ?_, ?_, ?_, ?_, ?_, ?_⟩ <;>
    simp [initState, emptyQueue, Coherent]

theorem inv_step {s s2 : PoolState} (hInv : Inv s) (hstep : PStep s s2) : Inv s2 := by
  obtain ⟨hco, hids, hfr, hho, hce, hbd, hcw, hpf, hwi, hwd⟩ := hInv
  cases hstep with
  | push t c p =>
    exact ⟨push_coherent hco t c p, hids, hfr, hho, hce, hbd, hcw, hpf, hwi, hwd⟩
  | delete t =>
    exact ⟨delete_coherent hco t, hids, hfr, hho, hce, hbd, hcw, hpf, hwi, hwd⟩
  | setClosing hl =>
    exact ⟨hco, hids, hfr, hho, hce, hbd, hcw, hpf, hwi, hwd⟩
  | spawn hl hcnt hq =>
    refine ⟨hco, ?_, ?_, ?_, ?_, hcnt, hcw, ?_, ?_, ?_⟩
    · show ((s.workers ++ [(s.nextId, Phase.atTop)]).map Prod.fst).Nodup
      rw [List.map_append]
      refine List.Nodup.append hids (by simp) ?_
      intro a ha hb
      simp only [List.map_cons, List.map_nil, List.mem_singleton] at hb
      obtain ⟨w, hw, hwa⟩ := List.mem_map.1 ha
      exact absurd (hwa ▸ hfr w hw) (by rw [hb]; exact lt_irrefl _)
    · intro w hw
      rcases List.mem_append.1 hw with h | h
      · exact Nat.lt_succ_of_lt (hfr w h)
      · simp only [List.mem_singleton] at h
        rw [h]
        exact Nat.lt_succ_self _
    · intro w hw hh
      rcases List.mem_append.1 hw with h | h
      · exact hho w h hh
      · simp only [List.mem_singleton] at h
        rw [h] at hh
        simp [holdsLock] at hh
    · show s.workerCount + 1 = (s.workers ++ [(s.nextId, Phase.atTop)]).length
      rw [List.length_append, hce]
      rfl
    · intro w hw t m h
      rcases List.mem_append.1 hw with hmem | hmem
      · exact hpf w hmem t m h
      · simp only [List.mem_singleton] at hmem
        rw [hmem] at h
        rcases h with h | h <;> simp at h
    · intro w hw t m h
      rcases List.mem_append.1 hw with hmem | hmem
      · exact hwi w hmem t m h
      · simp only [List.mem_singleton] at hmem
        rw [hmem] at h
        simp at h
    · intro w1 hw1 w2 hw2 hne t1 m1 t2 m2 h1 h2
      rcases List.mem_append.1 hw1 with hm1 | hm1
      · rcases List.mem_append.1 hw2 with hm2 | hm2
        · exact hwd w1 hm1 w2 hm2 hne t1 m1 t2 m2 h1 h2
        · simp only [List.mem_singleton] at hm2
          rw [hm2] at h2
          simp at h2
      · simp only [List.mem_singleton] at hm1
        rw [hm1] at h1
        simp at h1
  | exitWorker i hw hl hcnd =>
    refine ⟨hco, ?_, ?_, ?_, ?_, ?_, hcw, ?_, ?_, ?_⟩
    · exact List.Nodup.sublist (List.Sublist.map Prod.fst (List.filter_sublist s.workers)) hids
    · intro w hmem
      exact hfr w (List.mem_of_mem_filter hmem)
    · intro w hmem hh
      exact hho w (List.mem_of_mem_filter hmem) hh
    · show s.workerCount - 1 = (s.workers.filter (fun w => w.1 ≠ i)).length
      have hfl := filter_key_length hids hw
      omega
    · exact le_trans (Nat.sub_le _ _) hbd
    · intro w hmem t m h
      exact hpf w (List.mem_of_mem_filter hmem) t m h
    · intro w hmem t m h
      exact hwi w (List.mem_of_mem_filter hmem) t m h
    · intro w1 hm1 w2 hm2 hne t1 m1 t2 m2 h1 h2
      exact hwd w1 (List.mem_of_mem_filter hm1) w2 (List.mem_of_mem_filter hm2)
        hne t1 m1 t2 m2 h1 h2
  | enterTop i hw hl hcl hq =>
    refine ⟨hco, ?_, ?_, ?_, ?_, hbd, hcw, ?_, ?_, ?_⟩
    · show ((setPhase s.workers i Phase.checkedTop).map Prod.fst).Nodup
      rw [setPhase_map_fst]
      exact hids
    · intro w hmem
      rcases mem_setPhase hmem with ⟨_, hmem2⟩ | heq
      · exact hfr w hmem2
      · rw [heq]
        exact hfr (i, Phase.atTop) hw
    · intro w hmem hh
      rcases mem_setPhase hmem with ⟨hne, hmem2⟩ | heq
      · rw [hho w hmem2 hh] at hl
        cases hl
      · rw [heq]
    · show s.workerCount = (setPhase s.workers i Phase.checkedTop).length
      rw [setPhase_length]
      exact hce
    · intro w hmem t m h
      rcases mem_setPhase hmem with ⟨_, hmem2⟩ | heq
      · exact hpf w hmem2 t m h
      · rw [heq] at h
        rcases h with h | h <;> simp at h
    · intro w hmem t m h
      rcases mem_setPhase hmem with ⟨_, hmem2⟩ | heq
      · exact hwi w hmem2 t m h
      · rw [heq] at h
        simp at h
    · intro w1 hm1 w2 hm2 hne t1 m1 t2 m2 h1 h2
      rcases mem_setPhase hm1 with ⟨_, hm1b⟩ | heq1
      · rcases mem_setPhase hm2 with ⟨_, hm2b⟩ | heq2
        · exact hwd w1 hm1b w2 hm2b hne t1 m1 t2 m2 h1 h2
        · rw [heq2] at h2
          simp at h2
      · rw [heq1] at h1
        simp at h1
  | popZero i hw hz =>
    have hhi : s.lockHolder = some i := hho (i, Phase.checkedTop) hw rfl
    refine ⟨hco, ?_, ?_, ?_, ?_, hbd, hcw, ?_, ?_, ?_⟩
    · show ((setPhase s.workers i Phase.atTop).map Prod.fst).Nodup
      rw [setPhase_map_fst]
      exact hids
    · intro w hmem
      rcases mem_setPhase hmem with ⟨_, hmem2⟩ | heq
      · exact hfr w hmem2
      · rw [heq]
        exact hfr (i, Phase.checkedTop) hw
    · intro w hmem hh
      rcases mem_setPhase hmem with ⟨hne, hmem2⟩ | heq
      · rw [hho w hmem2 hh] at hhi
        exact absurd (Option.some.inj hhi) hne
      · rw [heq] at hh
        simp [holdsLock] at hh
    · show s.workerCount = (setPhase s.workers i Phase.atTop).length
      rw [setPhase_length]
      exact hce
    · intro w hmem t m h
      rcases mem_setPhase hmem with ⟨_, hmem2⟩ | heq
      · exact hpf w hmem2 t m h
      · rw [heq] at h
        rcases h with h | h <;> simp at h
    · intro w hmem t m h
      rcases mem_setPhase hmem with ⟨_, hmem2⟩ | heq
      · exact hwi w hmem2 t m h
      · rw [heq] at h
        simp at h
    · intro w1 hm1 w2 hm2 hne t1 m1 t2 m2 h1 h2
      rcases mem_setPhase hm1 with ⟨_, hm1b⟩ | heq1
      · rcases mem_setPhase hm2 with ⟨_, hm2b⟩ | heq2
        · exact hwd w1 hm1b w2 hm2b hne t1 m1 t2 m2 h1 h2
        · rw [heq2] at h2
          simp at h2
      · rw [heq1] at h1
        simp at h1
  | popSome i hw hz =>
    have hhi : s.lockHolder = some i := hho (i, Phase.checkedTop) hw rfl
    have hnz : (s.q.Pop (exclOf s.currentlyWorking)).1 ≠ (zeroResource, none) := by
      intro hcontra
      exact hz (by rw [hcontra])
    have hfree := pop_some_not_excluded hco hnz
    refine ⟨hco, ?_, ?_, ?_, ?_, hbd, hcw, ?_, ?_, ?_⟩
    · show ((setPhase s.workers i _).map Prod.fst).Nodup
      rw [setPhase_map_fst]
      exact hids
    · intro w hmem
      rcases mem_setPhase hmem with ⟨_, hmem2⟩ | heq
      · exact hfr w hmem2
      · rw [heq]
        exact hfr (i, Phase.checkedTop) hw
    · intro w hmem hh
      rcases mem_setPhase hmem with ⟨hne, hmem2⟩ | heq
      · exact hho w hmem2 hh
      · rw [heq]
        exact hhi
    · show s.workerCount = (setPhase s.workers i _).length
      rw [setPhase_length]
      exact hce
    · intro w hmem t m h
      rcases mem_setPhase hmem with ⟨_, hmem2⟩ | heq
      · exact hpf w hmem2 t m h
      · rw [heq] at h
        rcases h with h | h
        · simp only [Prod.mk.injEq] at h
          have ht : (s.q.Pop (exclOf s.currentlyWorking)).1.1 = t := by
            injection h with h1 h2
          rw [← ht]
          exact hfree
        · simp at h
    · intro w hmem t m h
      rcases mem_setPhase hmem with ⟨_, hmem2⟩ | heq
      · exact hwi w hmem2 t m h
      · rw [heq] at h
        simp at h
    · intro w1 hm1 w2 hm2 hne t1 m1 t2 m2 h1 h2
      rcases mem_setPhase hm1 with ⟨_, hm1b⟩ | heq1
      · rcases mem_setPhase hm2 with ⟨_, hm2b⟩ | heq2
        · exact hwd w1 hm1b w2 hm2b hne t1 m1 t2 m2 h1 h2
        · rw [heq2] at h2
          simp at h2
      · rw [heq1] at h1
        simp at h1
  | delTarget i t m hw =>
    have hhi : s.lockHolder = some i := hho (i, Phase.popped t m) hw rfl
    refine ⟨delete_coherent hco t, ?_, ?_, ?_, ?_, hbd, hcw, ?_, ?_, ?_⟩
    · show ((setPhase s.workers i _).map Prod.fst).Nodup
      rw [setPhase_map_fst]
      exact hids
    · intro w hmem
      rcases mem_setPhase hmem with ⟨_, hmem2⟩ | heq
      · exact hfr w hmem2
      · rw [heq]
        exact hfr (i, Phase.popped t m) hw
    · intro w hmem hh
      rcases mem_setPhase hmem with ⟨hne, hmem2⟩ | heq
      · exact hho w hmem2 hh
      · rw [heq]
        exact hhi
    · show s.workerCount = (setPhase s.workers i _).length
      rw [setPhase_length]
      exact hce
    · intro w hmem t2 m2 h
      rcases mem_setPhase hmem with ⟨_, hmem2⟩ | heq
      · exact hpf w hmem2 t2 m2 h
      · rw [heq] at h
        rcases h with h | h
        · simp at h
        · have ht : t = t2 := by
            injection h with h1 h2
          rw [← ht]
          exact hpf (i, Phase.popped t m) hw t m (Or.inl rfl)
    · intro w hmem t2 m2 h
      rcases mem_setPhase hmem with ⟨_, hmem2⟩ | heq
      · exact hwi w hmem2 t2 m2 h
      · rw [heq] at h
        simp at h
    · intro w1 hm1 w2 hm2 hne t1 m1 t2 m2 h1 h2
      rcases mem_setPhase hm1 with ⟨_, hm1b⟩ | heq1
      · rcases mem_setPhase hm2 with ⟨_, hm2b⟩ | heq2
        · exact hwd w1 hm1b w2 hm2b hne t1 m1 t2 m2 h1 h2
        · rw [heq2] at h2
          simp at h2
      · rw [heq1] at h1
        simp at h1
  | mark i t m hw =>
    have hhi : s.lockHolder = some i := hho (i, Phase.delDone t m) hw rfl
    have hnotin : convert t ∉ s.currentlyWorking :=
      hpf (i, Phase.delDone t m) hw t m (Or.inr rfl)
    refine ⟨hco, ?_, ?_, ?_, ?_, hbd, ?_, ?_, ?_, ?_⟩
    · show ((setPhase s.workers i _).map Prod.fst).Nodup
      rw [setPhase_map_fst]
      exact hids
    · intro w hmem
      rcases mem_setPhase hmem with ⟨_, hmem2⟩ | heq
      · exact hfr w hmem2
      · rw [heq]
        exact hfr (i, Phase.delDone t m) hw
    · intro w hmem hh
      rcases mem_setPhase hmem with ⟨hne, hmem2⟩ | heq
      · rw [hho w hmem2 hh] at hhi
        exact absurd (Option.some.inj hhi) hne
      · rw [heq] at hh
        simp [holdsLock] at hh
    · show s.workerCount = (setPhase s.workers i _).length
      rw [setPhase_length]
      exact hce
    · exact List.nodup_cons.2 ⟨hnotin, hcw⟩
    · intro w hmem t2 m2 h
      rcases mem_setPhase hmem with ⟨hne, hmem2⟩ | heq
      · have hh : holdsLock w.2 = true := by
          rcases h with h | h <;> rw [h] <;> rfl
        rw [hho w hmem2 hh] at hhi
        exact absurd (Option.some.inj hhi) hne
      · rw [heq] at h
        rcases h with h | h <;> simp at h
    · intro w hmem t2 m2 h
      rcases mem_setPhase hmem with ⟨_, hmem2⟩ | heq
      · exact List.mem_cons_of_mem _ (hwi w hmem2 t2 m2 h)
      · rw [heq] at h
        have ht : t = t2 := by
          injection h with h1 h2
        rw [← ht]
        exact List.mem_cons_self _ _
    · intro w1 hm1 w2 hm2 hne t1 m1 t2 m2 h1 h2
      rcases mem_setPhase hm1 with ⟨_, hm1b⟩ | heq1
      · rcases mem_setPhase hm2 with ⟨_, hm2b⟩ | heq2
        · exact hwd w1 hm1b w2 hm2b hne t1 m1 t2 m2 h1 h2
        · rw [heq2] at h2
          have ht : t = t2 := by
            injection h2 with h1b h2b
          rw [← ht]
          intro hctr
          exact hnotin (hctr ▸ hwi w1 hm1b t1 m1 h1)
      · rcases mem_setPhase hm2 with ⟨_, hm2b⟩ | heq2
        · rw [heq1] at h1
          have ht : t = t1 := by
            injection h1 with h1b h2b
          rw [← ht]
          intro hctr
          exact hnotin (hctr ▸ hwi w2 hm2b t2 m2 h2)
        · rw [heq1, heq2] at hne
          simp at hne
  | unmark i t m hw hl =>
    refine ⟨hco, ?_, ?_, ?_, ?_, hbd, List.Nodup.erase _ hcw, ?_, ?_, ?_⟩
    · show ((setPhase s.workers i _).map Prod.fst).Nodup
      rw [setPhase_map_fst]
      exact hids
    · intro w hmem
      rcases mem_setPhase hmem with ⟨_, hmem2⟩ | heq
      · exact hfr w hmem2
      · rw [heq]
        exact hfr (i, Phase.working t m) hw
    · intro w hmem hh
      rcases mem_setPhase hmem with ⟨hne, hmem2⟩ | heq
      · rw [hho w hmem2 hh] at hl
        cases hl
      · rw [heq] at hh
        simp [holdsLock] at hh
    · show s.workerCount = (setPhase s.workers i _).length
      rw [setPhase_length]
      exact hce
    · intro w hmem t2 m2 h
      rcases mem_setPhase hmem with ⟨_, hmem2⟩ | heq
      · intro hctr
        exact hpf w hmem2 t2 m2 h (List.mem_of_mem_erase hctr)
      · rw [heq] at h
        rcases h with h | h <;> simp at h
    · intro w hmem t2 m2 h
      rcases mem_setPhase hmem with ⟨hne, hmem2⟩ | heq
      · have hnekey : convert t2 ≠ convert t :=
          hwd w hmem2 (i, Phase.working t m) hw hne t2 m2 t m h rfl
        exact (List.mem_erase_of_ne hnekey).2 (hwi w hmem2 t2 m2 h)
      · rw [heq] at h
        simp at h
    · intro w1 hm1 w2 hm2 hne t1 m1 t2 m2 h1 h2
      rcases mem_setPhase hm1 with ⟨_, hm1b⟩ | heq1
      · rcases mem_setPhase hm2 with ⟨_, hm2b⟩ | heq2
        · exact hwd w1 hm1b w2 hm2b hne t1 m1 t2 m2 h1 h2
        · rw [heq2] at h2
          simp at h2
      · rw [heq1] at h1
        simp at h1

/-- Every reachable state satisfies the invariant. -/
theorem inv_reach {mw : Nat} {s : PoolState} (h : Reach mw s) : Inv s := by
  induction h with
  | init => exact inv_init mw
  | step _ hstep ih => exact inv_step ih hstep

/-- A sample resource used for concrete executions. -/
def rA : Resource :=
  { GroupVersionResource := { Group := "g", Version := "v", Resource := "r" },
    Namespace := "ns", Name := "n", Generation := "1" }

def tS0 : PoolState := initState 1

def tS1 : PoolState := { tS0 with q := tS0.q.Push rA 0 (GoVal.payload 7) }

def tS2 : PoolState :=
  { tS1 with workerCount := tS1.workerCount + 1,
             workers := tS1.workers ++ [(tS1.nextId, Phase.atTop)],
             nextId := tS1.nextId + 1 }

def tS3 : PoolState :=
  { tS2 with lockHolder := some 0, workers := setPhase tS2.workers 0 Phase.checkedTop }

def tS4 : PoolState :=
  { tS3 with q := (tS3.q.Pop (exclOf tS3.currentlyWorking)).2,
             workers := setPhase tS3.workers 0
               (Phase.popped (tS3.q.Pop (exclOf tS3.currentlyWorking)).1.1
                             (tS3.q.Pop (exclOf tS3.currentlyWorking)).1.2) }

def tS5 : PoolState :=
  { tS4 with q := tS4.q.Delete rA,
             workers := setPhase tS4.workers 0
               (Phase.delDone rA (some [(0, GoVal.payload 7)])) }

def tS6 : PoolState :=
  { tS5 with currentlyWorking := convert rA :: tS5.currentlyWorking,
             lockHolder := none,
             workers := setPhase tS5.workers 0
               (Phase.working rA (some [(0, GoVal.payload 7)])) }

theorem reach_tS1 : Reach 1 tS1 :=
  Reach.step Reach.init (PStep.push tS0 rA 0 (GoVal.payload 7))

theorem reach_tS2 : Reach 1 tS2 :=
  Reach.step reach_tS1 (PStep.spawn tS1 rfl (by decide) (by decide))

theorem reach_tS3 : Reach 1 tS3 :=
  Reach.step reach_tS2 (PStep.enterTop tS2 0 (by decide) rfl rfl (by decide))

theorem reach_tS4 : Reach 1 tS4 :=
  Reach.step reach_tS3 (PStep.popSome tS3 0 (by decide) (by decide))

theorem reach_tS5 : Reach 1 tS5 :=
  Reach.step reach_tS4 (PStep.delTarget tS4 0 rA (some [(0, GoVal.payload 7)]) (by decide))

theorem reach_tS6 : Reach 1 tS6 :=
  Reach.step reach_tS5 (PStep.mark tS5 0 rA (some [(0, GoVal.payload 7)]) (by decide))

/-- Claim C1: in every reachable pool state, a key in the in-flight set
currentlyWorking is never the key of a task returned by a Pop that passes
the in-flight set as its exclusion set, and no two distinct workers are
concurrently in the get/merge/write section for the same key, even under
concurrent pushes for that key. -/
theorem c1_inflight_exclusion_and_mutex (mw : Nat) (s : PoolState) (h : Reach mw s) :
    (∀ k ∈ s.currentlyWorking, ∀ r m q2,
        s.q.Pop (exclOf s.currentlyWorking) = ((r, some m), q2) → convert r ≠ k) ∧
    (∀ w1 ∈ s.workers, ∀ w2 ∈ s.workers, w1.1 ≠ w2.1 →
      ∀ t1 m1 t2 m2, w1.2 = Phase.working t1 m1 → w2.2 = Phase.working t2 m2 →
        convert t1 ≠ convert t2) := by
  have hInv := inv_reach h
  constructor
  · intro k hk r m q2 hpop
    have hne : (s.q.Pop (exclOf s.currentlyWorking)).1 ≠ (zeroResource, none) := by
      rw [hpop]
      simp
    have hfree := pop_some_not_excluded hInv.coherent hne
    have hr : (s.q.Pop (exclOf s.currentlyWorking)).1.1 = r := by rw [hpop]
    rw [hr] at hfree
    intro hctr
    rw [hctr] at hfree
    exact hfree hk
  · exact hInv.workingDistinct

/-- Witness for C1 at a concrete reachable state in which worker 0 is in
the get/merge/write section for resource rA. -/
theorem c1_inflight_exclusion_and_mutex_witness :
    (∀ k ∈ tS6.currentlyWorking, ∀ r m q2,
        tS6.q.Pop (exclOf tS6.currentlyWorking) = ((r, some m), q2) → convert r ≠ k) ∧
    (∀ w1 ∈ tS6.workers, ∀ w2 ∈ tS6.workers, w1.1 ≠ w2.1 →
      ∀ t1 m1 t2 m2, w1.2 = Phase.working t1 m1 → w2.2 = Phase.working t2 m2 →
        convert t1 ≠ convert t2) :=
  c1_inflight_exclusion_and_mutex 1 tS6 reach_tS6

/-- Claim C4: in every reachable pool state the worker count is at most
the configured maximum, and it equals the number of live workers (each
worker having decremented it exactly once on exit). -/
theorem c4_worker_bound (mw : Nat) (s : PoolState) (h : Reach mw s) :
    s.workerCount ≤ s.maxWorkers ∧ s.workers.length = s.workerCount := by
  have hInv := inv_reach h
  exact ⟨hInv.bound, hInv.countEq.symm⟩

/-- Witness for C4 at a concrete reachable state with one live worker. -/
theorem c4_worker_bound_witness :
    tS6.workerCount ≤ tS6.maxWorkers ∧ tS6.workers.length = tS6.workerCount :=
  c4_worker_bound 1 tS6 reach_tS6

/-- One Push invocation: its three arguments. -/
structure PushCall where
  target : Resource
  ctl : Nat
  progress : GoVal

/-- A sequence of Push invocations applied in order. -/
def foldPush (q : WorkQueue) (ps : List PushCall) : WorkQueue :=
  ps.foldl (fun q p => q.Push p.target p.ctl p.progress) q

/-- The latest update pushed by submitter c in the call sequence, if any. -/
def lastProgress (c : Nat) : List PushCall → Option GoVal
  | [] => none
  | p :: rest =>
    match lastProgress c rest with
    | some v => some v
    | none => if p.ctl = c then some p.progress else none

theorem lookup_mapSet_self (m : PCS) (k : Nat) (v : GoVal) :
    (mapSet m k v).lookup k = some v := by
  induction m with
  | nil => simp [mapSet, List.lookup]
  | cons kv rest ih =>
    obtain ⟨k1, v1⟩ := kv
    by_cases h : k1 = k
    · simp [mapSet, h, List.lookup]
    · have hbe : (k == k1) = false := by simp [Ne.symm h]
      simp [mapSet, h, List.lookup, hbe, ih]

theorem lookup_mapSet_ne (m : PCS) (k c : Nat) (v : GoVal) (h : k ≠ c) :
    (mapSet m k v).lookup c = m.lookup c := by
  induction m with
  | nil =>
    have hbe : (c == k) = false := by simp [Ne.symm h]
    simp [mapSet, List.lookup, hbe]
  | cons kv rest ih =>
    obtain ⟨k1, v1⟩ := kv
    by_cases h1 : k1 = k
    · have hbe : (c == k) = false := by simp [Ne.symm h]
      have hbe1 : (c == k1) = false := by
        rw [h1]
        exact hbe
      simp [mapSet, h1, List.lookup, hbe, hbe1]
    · by_cases h2 : k1 = c
      · have hbe : (c == k1) = true := by simp [h2]
        simp [mapSet, h1, List.lookup, hbe]
      · have hbe : (c == k1) = false := by simp [Ne.symm h2]
        simp [mapSet, h1, List.lookup, hbe, ih]

theorem mem_keys_mapSet {m : PCS} {k c : Nat} {v : GoVal}
    (h : c ∈ (mapSet m k v).map Prod.fst) : c ∈ m.map Prod.fst ∨ c = k := by
  induction m with
  | nil =>
    simp [mapSet] at h
    exact Or.inr h
  | cons kv rest ih =>
    obtain ⟨k1, v1⟩ := kv
    by_cases h1 : k1 = k
    · simp only [mapSet, h1, if_true, List.map_cons, List.mem_cons] at h ⊢
      rcases h with h | h
      · exact Or.inr h
      · exact Or.inl (Or.inr h)
    · simp only [mapSet, h1, if_false, List.map_cons, List.mem_cons] at h ⊢
      rcases h with h | h
      · exact Or.inl (Or.inl h)
      · rcases ih h with h2 | h2
        · exact Or.inl (Or.inr h2)
        · exact Or.inr h2

theorem keys_nodup_mapSet {m : PCS} (h : (m.map Prod.fst).Nodup) (k : Nat) (v : GoVal) :
    ((mapSet m k v).map Prod.fst).Nodup := by
  induction m with
  | nil => simp [mapSet]
  | cons kv rest ih =>
    obtain ⟨k1, v1⟩ := kv
    simp only [List.map_cons, List.nodup_cons] at h
    by_cases h1 : k1 = k
    · simp only [mapSet, h1, if_true, List.map_cons, List.nodup_cons]
      exact ⟨h1 ▸ h.1, h.2⟩
    · simp only [mapSet, h1, if_false, List.map_cons, List.nodup_cons]
      refine ⟨?_, ih h.2⟩
      intro hctr
      rcases mem_keys_mapSet hctr with h2 | h2
      · exact h.1 h2
      · exact h1 h2

theorem foldPush_merge (ps : List PushCall) (q : WorkQueue) (k : LockResource)
    (hall : ∀ p ∈ ps, convert p.target = k) (e : CacheEntry) (he : q.cache k = some e) :
    (foldPush q ps).tasks = q.tasks ∧
    (foldPush q ps).cache k =
      some { cacheResource := e.cacheResource,
             perControllerStatus :=
               ps.foldl (fun m p => mapSet m p.ctl p.progress) e.perControllerStatus } := by
  induction ps generalizing q e with
  | nil =>
    constructor
    · rfl
    · show q.cache k = _
      rw [he]
      rfl
  | cons p rest ih =>
    have hk : convert p.target = k := hall p (List.mem_cons_self p rest)
    have hc : q.cache (convert p.target) = some e := by rw [hk]; exact he
    have hcache2 : (q.Push p.target p.ctl p.progress).cache k =
        some { cacheResource := e.cacheResource,
               perControllerStatus := mapSet e.perControllerStatus p.ctl p.progress } := by
      rw [push_cache_hit hc p.ctl p.progress k, if_pos hk.symm]
    have hrest : ∀ p2 ∈ rest, convert p2.target = k :=
      fun p2 hp2 => hall p2 (List.mem_cons_of_mem p hp2)
    have ih2 := ih (q.Push p.target p.ctl p.progress) hrest
      { cacheResource := e.cacheResource,
        perControllerStatus := mapSet e.perControllerStatus p.ctl p.progress } hcache2
    refine ⟨?_, ?_⟩
    · show (foldPush (q.Push p.target p.ctl p.progress) rest).tasks = q.tasks
      rw [ih2.1, push_tasks_hit hc p.ctl p.progress]
    · exact ih2.2

theorem lookup_foldl_mapSet (ps : List PushCall) (m0 : PCS) (c : Nat) :
    (ps.foldl (fun m p => mapSet m p.ctl p.progress) m0).lookup c =
      match lastProgress c ps with
      | some v => some v
      | none => m0.lookup c := by
  induction ps generalizing m0 with
  | nil => simp [lastProgress]
  | cons p rest ih =>
    simp only [List.foldl_cons, lastProgress]
    rw [ih]
    cases hl : lastProgress c rest with
    | some v => rfl
    | none =>
      by_cases hc : p.ctl = c
      · rw [hc, lookup_mapSet_self]
        simp
      · rw [lookup_mapSet_ne _ _ _ _ hc]
        simp [hc]

theorem keys_nodup_foldl (ps : List PushCall) (m0 : PCS)
    (h : (m0.map Prod.fst).Nodup) :
    ((ps.foldl (fun m p => mapSet m p.ctl p.progress) m0).map Prod.fst).Nodup := by
  induction ps generalizing m0 with
  | nil => exact h
  | cons p rest ih => exact ih _ (keys_nodup_mapSet h p.ctl p.progress)

/-- Claim C2: pushing the same key any number of times before it is
popped leaves exactly one pending task at the position of the first push;
the entry keeps one slot per distinct submitter holding the latest update
of that submitter.  The pushes may carry different generations (the key drops
the generation) and come from multiple submitters. -/
theorem c2_push_coalescing (q0 : WorkQueue) (p0 : PushCall) (rest : List PushCall)
    (k : LockResource)
    (hall : ∀ p ∈ p0 :: rest, convert p.target = k)
    (hfresh : q0.cache k = none) (hnotin : k ∉ q0.tasks) :
    (foldPush q0 (p0 :: rest)).tasks = q0.tasks ++ [k] ∧
    (foldPush q0 (p0 :: rest)).tasks.count k = 1 ∧
    ∃ e, (foldPush q0 (p0 :: rest)).cache k = some e ∧
      e.cacheResource = p0.target ∧
      (e.perControllerStatus.map Prod.fst).Nodup ∧
      ∀ c, e.perControllerStatus.lookup c = lastProgress c (p0 :: rest) := by
  have hk0 : convert p0.target = k := hall p0 (List.mem_cons_self p0 rest)
  have hc0 : q0.cache (convert p0.target) = none := by rw [hk0]; exact hfresh
  have hcache1 : (q0.Push p0.target p0.ctl p0.progress).cache k =
      some { cacheResource := p0.target,
             perControllerStatus := [(p0.ctl, p0.progress)] } := by
    rw [push_cache_miss hc0 p0.ctl p0.progress k, if_pos hk0.symm]
  have hrest : ∀ p2 ∈ rest, convert p2.target = k :=
    fun p2 hp2 => hall p2 (List.mem_cons_of_mem p0 hp2)
  have hm := foldPush_merge rest (q0.Push p0.target p0.ctl p0.progress) k hrest
    { cacheResource := p0.target, perControllerStatus := [(p0.ctl, p0.progress)] } hcache1
  have htasks : (foldPush q0 (p0 :: rest)).tasks = q0.tasks ++ [k] := by
    show (foldPush (q0.Push p0.target p0.ctl p0.progress) rest).tasks = q0.tasks ++ [k]
    rw [hm.1, push_tasks_miss hc0 p0.ctl p0.progress, hk0]
  refine ⟨htasks, ?_, ?_⟩
  · rw [htasks, List.count_append, List.count_eq_zero_of_not_mem hnotin]
    simp
  · refine ⟨_, hm.2, rfl, ?_, ?_⟩
    · exact keys_nodup_foldl rest [(p0.ctl, p0.progress)] (by simp)
    · intro c
      show (rest.foldl (fun m p => mapSet m p.ctl p.progress)
              [(p0.ctl, p0.progress)]).lookup c = _
      rw [lookup_foldl_mapSet]
      show _ = lastProgress c (p0 :: rest)
      cases hl : lastProgress c rest with
      | some v => simp [lastProgress, hl]
      | none =>
        by_cases hc : p0.ctl = c
        · have hbe : (c == p0.ctl) = true := by simp [hc]
          simp [lastProgress, hl, List.lookup, hbe, hc]
        · have hbe : (c == p0.ctl) = false := by simp [Ne.symm hc]
          simp [lastProgress, hl, List.lookup, hbe, hc]

/-- A second sample resource: same key as rA, different generation. -/
def rA2 : Resource := { rA with Generation := "2" }

/-- Witness for C2: three pushes for the key of rA (two submitters, one of
them twice, one push at a different generation) coalesce into one pending
task holding the latest update of each submitter. -/
theorem c2_push_coalescing_witness :
    (foldPush emptyQueue
        [⟨rA, 0, GoVal.payload 1⟩, ⟨rA2, 1, GoVal.payload 2⟩, ⟨rA, 0, GoVal.payload 3⟩]).tasks =
      emptyQueue.tasks ++ [convert rA] ∧
    (foldPush emptyQueue
        [⟨rA, 0, GoVal.payload 1⟩, ⟨rA2, 1, GoVal.payload 2⟩, ⟨rA, 0, GoVal.payload 3⟩]).tasks.count
      (convert rA) = 1 ∧
    ∃ e, (foldPush emptyQueue
        [⟨rA, 0, GoVal.payload 1⟩, ⟨rA2, 1, GoVal.payload 2⟩, ⟨rA, 0, GoVal.payload 3⟩]).cache
        (convert rA) = some e ∧
      e.cacheResource = rA ∧
      (e.perControllerStatus.map Prod.fst).Nodup ∧
      ∀ c, e.perControllerStatus.lookup c =
        lastProgress c [⟨rA, 0, GoVal.payload 1⟩, ⟨rA2, 1, GoVal.payload 2⟩, ⟨rA, 0, GoVal.payload 3⟩] :=
  c2_push_coalescing emptyQueue ⟨rA, 0, GoVal.payload 1⟩
    [⟨rA2, 1, GoVal.payload 2⟩, ⟨rA, 0, GoVal.payload 3⟩] (convert rA)
    (by decide) rfl (by decide)

/-- Claim C3: stale tasks are dropped silently: when the getter returns a
config whose generation, formatted as a decimal string, differs from the
recorded generation of the task resource, the writer is not invoked for the
task, and likewise when the getter returns nil. -/
theorem c3_stale_drop (get : Resource → Option Config)
    (fnOf : Nat → GenProvider → GoVal → GenProvider)
    (target : Resource) (work : PCS) :
    (get target = none → (processTask get fnOf target work).writeCall = none) ∧
    (∀ cfg, get target = some cfg → formatInt cfg.generation ≠ target.Generation →
      (processTask get fnOf target work).writeCall = none) := by
  constructor
  · intro h
    simp [processTask, h]
  · intro cfg h hne
    simp [processTask, h, hne]

/-- Witness for C3: a getter returning generation 2 against a task
recorded at generation string one, and a nil getter. -/
theorem c3_stale_drop_witness :
    (processTask (fun _ => some { generation := 2, status := GoVal.nilVal })
      (fun _ x _ => x) rA []).writeCall = none ∧
    (processTask (fun _ => none) (fun _ x _ => x) rA []).writeCall = none :=
  ⟨(c3_stale_drop (fun _ => some { generation := 2, status := GoVal.nilVal })
      (fun _ x _ => x) rA []).2 { generation := 2, status := GoVal.nilVal } rfl (by decide),
   (c3_stale_drop (fun _ => none) (fun _ x _ => x) rA []).1 rfl⟩

/-- A fetched config whose status value exposes no observed-generation
field. -/
def cfg8 : Config := { generation := 1, status := GoVal.nilVal }

/-- Counterexample to claim C8 as stated: when GetOGProvider fails, the
worker warns and still writes, but it does not substitute the fetched
generation anywhere: SetObservedGeneration is skipped and the written
status argument is the nil provider, which carries no generation field at
all. -/
theorem c8_counterexample :
    (processTask (fun _ => some cfg8) (fun _ x _ => x) rA []).warned = true ∧
    (processTask (fun _ => some cfg8) (fun _ x _ => x) rA []).writeCall =
      some { cfg := cfg8, status := GoVal.provider GenProvider.nil } ∧
    observedGenOf (GoVal.provider GenProvider.nil) ≠ some cfg8.generation := by
  decide

/-- Claim C8 amended: the no-observed-generation failure is non-fatal: the
warning is logged, no error reaches the caller (the task result has no
error channel), the submitter merges are applied starting from the nil
provider returned with the failure, and the writer is still invoked; but
SetObservedGeneration is skipped, so the fetched generation is not
substituted into the status. -/
theorem c8_missing_generation_nonfatal (get : Resource → Option Config)
    (fnOf : Nat → GenProvider → GoVal → GenProvider)
    (target : Resource) (work : PCS) (cfg : Config)
    (hget : get target = some cfg)
    (hgen : formatInt cfg.generation = target.Generation)
    (herr : GetOGProvider cfg.status = Except.error OGErr.noObservedGeneration) :
    (processTask get fnOf target work).warned = true ∧
    (processTask get fnOf target work).writeCall =
      some { cfg := cfg,
             status := GoVal.provider
               (work.foldl (fun x ci => fnOf ci.1 x ci.2) GenProvider.nil) } := by
  simp [processTask, hget, hgen, herr]

/-- Witness for the amended C8 at a concrete stale-free task whose status
is the nil interface. -/
theorem c8_missing_generation_nonfatal_witness :
    (processTask (fun _ => some cfg8) (fun _ x _ => x) rA
        [(0, GoVal.payload 5)]).warned = true ∧
    (processTask (fun _ => some cfg8) (fun _ x _ => x) rA
        [(0, GoVal.payload 5)]).writeCall =
      some { cfg := cfg8,
             status := GoVal.provider
               ([(0, GoVal.payload 5)].foldl
                 (fun x ci => (fun (_ : Nat) (x2 : GenProvider) (_ : GoVal) => x2) ci.1 x ci.2)
                 GenProvider.nil) } :=
  c8_missing_generation_nonfatal (fun _ => some cfg8) (fun _ x _ => x) rA
    [(0, GoVal.payload 5)] cfg8 rfl (by decide) rfl

/-- A status payload carrying an observed-generation field. -/
def st9 : IstioStatus := { ObservedGeneration := 0, rest := 3 }

/-- The same payload after the fetched generation is substituted. -/
def st9b : IstioStatus := { ObservedGeneration := 1, rest := 3 }

/-- A fetched config at generation 1 whose status is a pointer to st9. -/
def cfg9 : Config := { generation := 1, status := GoVal.istioStatusRef st9 }

/-- Counterexample to claim C9 as stated: on the successful path the
writer receives the final GenerationProvider value itself, not the result
of unwrapping it: the invocation carries the provider wrapper, and differs
from the invocation the claim predicts (the unwrapped payload). -/
theorem c9_counterexample :
    (processTask (fun _ => some cfg9) (fun _ x _ => x) rA []).writeCall =
      some { cfg := cfg9, status := GoVal.provider (GenProvider.istio st9b) } ∧
    (processTask (fun _ => some cfg9) (fun _ x _ => x) rA []).writeCall ≠
      some { cfg := cfg9, status := (GenProvider.istio st9b).Unwrap } := by
  decide

/-- Claim C9 amended: for a successfully processed task the worker sets
the observed generation of the provider view to the fetched generation,
folds the merge function of every pending submitter over it sequentially (in
the iteration order of the per-submitter map), and invokes the writer with
the fetched config and the final provider value itself, without applying
Unwrap at the call site. -/
theorem c9_writer_receives_final_provider (get : Resource → Option Config)
    (fnOf : Nat → GenProvider → GoVal → GenProvider)
    (target : Resource) (work : PCS) (cfg : Config) (s0 : IstioStatus)
    (hget : get target = some cfg)
    (hst : cfg.status = GoVal.istioStatusRef s0)
    (hgen : formatInt cfg.generation = target.Generation) :
    (processTask get fnOf target work).writeCall =
      some { cfg := cfg,
             status := GoVal.provider
               (work.foldl (fun x ci => fnOf ci.1 x ci.2)
                 (GenProvider.istio { s0 with ObservedGeneration := cfg.generation })) } := by
  simp [processTask, hget, hgen, hst, GetOGProvider, GenProvider.SetObservedGeneration]

/-- Witness for the amended C9: one submitter whose merge replaces the
status; the write carries the provider produced by the fold. -/
theorem c9_writer_receives_final_provider_witness :
    (processTask (fun _ => some cfg9)
        (fun _ _ _ => GenProvider.istio { ObservedGeneration := 7, rest := 9 }) rA
        [(0, GoVal.payload 5)]).writeCall =
      some { cfg := cfg9,
             status := GoVal.provider
               (GenProvider.istio { ObservedGeneration := 7, rest := 9 }) } := by
  have h := c9_writer_receives_final_provider (fun _ => some cfg9)
    (fun _ _ _ => GenProvider.istio { ObservedGeneration := 7, rest := 9 }) rA
    [(0, GoVal.payload 5)] cfg9 st9 rfl rfl (by decide)
  simpa using h

/-- Queue states reachable by Push and Pop operations alone. -/
inductive QReach : WorkQueue → Prop where
  | init : QReach emptyQueue
  | push {q : WorkQueue} (t : Resource) (c : Nat) (p : GoVal) :
      QReach q → QReach (q.Push t c p)
  | pop {q : WorkQueue} (excl : LockResource → Bool) :
      QReach q → QReach (q.Pop excl).2

theorem qreach_inv {q : WorkQueue} (h : QReach q) :
    q.tasks.Nodup ∧ ∀ k ∈ q.tasks, q.cache k ≠ none := by
  induction h with
  | init => simp [emptyQueue]
  | @push q t c p _ ih =>
    obtain ⟨hnd, hmem⟩ := ih
    cases hc : q.cache (convert t) with
    | some item =>
      constructor
      · rw [push_tasks_hit hc c p]
        exact hnd
      · intro k hk
        rw [push_tasks_hit hc c p] at hk
        rw [push_cache_hit hc c p k]
        by_cases hkt : k = convert t
        · simp [hkt]
        · rw [if_neg hkt]
          exact hmem k hk
    | none =>
      constructor
      · rw [push_tasks_miss hc c p]
        refine List.Nodup.append hnd (by simp) ?_
        intro a ha hb
        simp only [List.mem_singleton] at hb
        rw [hb] at ha
        exact hmem (convert t) ha hc
      · intro k hk
        rw [push_tasks_miss hc c p] at hk
        rw [push_cache_miss hc c p k]
        rcases List.mem_append.1 hk with h1 | h1
        · by_cases hkt : k = convert t
          · simp [hkt]
          · rw [if_neg hkt]
            exact hmem k h1
        · simp only [List.mem_singleton] at h1
          simp [h1]
  | @pop q excl _ ih =>
    obtain ⟨hnd, hmem⟩ := ih
    constructor
    · exact List.Nodup.sublist (popAux_sublist q.cache excl q.tasks) hnd
    · intro k hk
      exact hmem k ((popAux_sublist q.cache excl q.tasks).subset hk)

/-- Counterexample to claim C5 as stated: Push, Delete, Push for the same
resource leaves the key twice in the pending sequence, because Delete
removes only the cache entry and the second Push appends the key again. -/
theorem c5_counterexample :
    (((emptyQueue.Push rA 0 (GoVal.payload 1)).Delete rA).Push rA 0 (GoVal.payload 2)).tasks =
      [convert rA, convert rA] ∧
    ¬ ((((emptyQueue.Push rA 0 (GoVal.payload 1)).Delete rA).Push rA 0
          (GoVal.payload 2)).tasks.count (convert rA) ≤ 1) := by
  decide

/-- Claim C5 amended: in every queue state reachable by interleavings of
Push and Pop alone, each key appears at most once in the pending sequence;
interleaving Delete breaks the property, as the counterexample shows. -/
theorem c5_nodup_without_delete {q : WorkQueue} (h : QReach q) : q.tasks.Nodup :=
  (qreach_inv h).1

/-- Witness for the amended C5 after one concrete Push. -/
theorem c5_nodup_without_delete_witness :
    (emptyQueue.Push rA 0 (GoVal.payload 1)).tasks.Nodup :=
  c5_nodup_without_delete (QReach.push rA 0 (GoVal.payload 1) QReach.init)

/-- A resource with a key different from rA. -/
def rB : Resource := { rA with Name := "n2" }

/-- Counterexample to claim C6 as stated: with a deleted first key and an
eligible second key, Pop returns the zero Resource and nil map instead of
the task of the later key. -/
theorem c6_counterexample :
    ((((emptyQueue.Push rA 0 (GoVal.payload 1)).Push rB 0 (GoVal.payload 2)).Delete rA).Pop
        (exclOf [])).1 = (zeroResource, none) ∧
    ((((emptyQueue.Push rA 0 (GoVal.payload 1)).Push rB 0 (GoVal.payload 2)).Delete rA).Pop
        (exclOf [])).2.tasks = [convert rB] ∧
    (zeroResource, (none : Option PCS)) ≠ (rB, some [(0, GoVal.payload 2)]) := by
  decide

theorem popAux_missing (cache : LockResource → Option CacheEntry)
    (excl : LockResource → Bool) (pre : List LockResource) (k : LockResource)
    (rest : List LockResource)
    (hpre : ∀ k2 ∈ pre, excl k2 = true)
    (hk : excl k = false) (hc : cache k = none) :
    popAux cache excl (pre ++ k :: rest) = ((zeroResource, none), pre ++ rest) := by
  induction pre with
  | nil =>
    simp only [List.nil_append, popAux, hk, Bool.false_eq_true, if_false, hc]
  | cons a pre2 ih =>
    have ha : excl a = true := hpre a (List.mem_cons_self a pre2)
    have hpre2 : ∀ k2 ∈ pre2, excl k2 = true :=
      fun k2 h2 => hpre k2 (List.mem_cons_of_mem a h2)
    simp only [List.cons_append, popAux, ha, if_true]
    have hn : pre2.append (k :: rest) = pre2 ++ k :: rest := rfl
    rw [hn, ih hpre2]

/-- Claim C6 amended: when the scan reaches the first non-excluded key and
its cache entry has been removed by Delete, Pop drops that key from the
sequence and returns the zero Resource and nil map immediately; it does
not continue to a later eligible key within the same call (the worker
next loop iteration may pop the later key instead). -/
theorem c6_pop_missing_entry_skipped (q : WorkQueue) (pre : List LockResource)
    (k : LockResource) (rest : List LockResource) (excl : LockResource → Bool)
    (htasks : q.tasks = pre ++ k :: rest)
    (hpre : ∀ k2 ∈ pre, excl k2 = true)
    (hk : excl k = false) (hc : q.cache k = none) :
    (q.Pop excl).1 = (zeroResource, none) ∧ (q.Pop excl).2.tasks = pre ++ rest := by
  have h := popAux_missing q.cache excl pre k rest hpre hk hc
  constructor
  · show (popAux q.cache excl q.tasks).1 = (zeroResource, none)
    rw [htasks, h]
  · show (popAux q.cache excl q.tasks).2 = pre ++ rest
    rw [htasks, h]

/-- Witness for the amended C6 at the concrete deleted-key queue of the
counterexample. -/
theorem c6_pop_missing_entry_skipped_witness :
    ((((emptyQueue.Push rA 0 (GoVal.payload 1)).Push rB 0 (GoVal.payload 2)).Delete rA).Pop
        (exclOf [])).1 = (zeroResource, none) ∧
    ((((emptyQueue.Push rA 0 (GoVal.payload 1)).Push rB 0 (GoVal.payload 2)).Delete rA).Pop
        (exclOf [])).2.tasks = [] ++ [convert rB] :=
  c6_pop_missing_entry_skipped
    (((emptyQueue.Push rA 0 (GoVal.payload 1)).Push rB 0 (GoVal.payload 2)).Delete rA)
    [] (convert rA) [convert rB] (exclOf [])
    (by decide) (by decide) (by decide) (by decide)

/-- Counterexample to claim C7 as stated: a Pop that returns the task for
rA leaves the cache entry for rA in the map (Pop removes the key only from
the pending sequence; the removal from the map is a separate Delete issued
by the worker afterwards). -/
theorem c7_counterexample :
    ((emptyQueue.Push rA 0 (GoVal.payload 1)).Pop (exclOf [])).1.1 = rA ∧
    ((emptyQueue.Push rA 0 (GoVal.payload 1)).Pop (exclOf [])).2.tasks = [] ∧
    ((emptyQueue.Push rA 0 (GoVal.payload 1)).Pop (exclOf [])).2.cache (convert rA) =
      some { cacheResource := rA, perControllerStatus := [(0, GoVal.payload 1)] } := by
  decide

/-- Claim C7 amended: Pop never changes the cache map, removing the
returned key only from the pending sequence; the map entry is removed by
the separate queue Delete the worker issues after Pop, and between the two
a state with the entry still in the map and the key gone from the sequence
is reachable (and observable to operations taking only the queue lock,
such as Push). -/
theorem c7_pop_leaves_cache :
    (∀ (wq : WorkQueue) (excl : LockResource → Bool), ((wq.Pop excl).2).cache = wq.cache) ∧
    (∃ s, Reach 1 s ∧ ∃ t m, (0, Phase.popped t m) ∈ s.workers ∧
      s.q.cache (convert t) ≠ none ∧ convert t ∉ s.q.tasks) := by
  refine ⟨fun _ _ => rfl, tS4, reach_tS4, rA, some [(0, GoVal.payload 7)], ?_, ?_, ?_⟩
  · decide
  · decide
  · decide

def zS0 : PoolState := initState 1

def zS1 (c : Nat) (p : GoVal) : PoolState :=
  { zS0 with q := zS0.q.Push zeroResource c p }

def zS2 (c : Nat) (p : GoVal) : PoolState :=
  { zS1 c p with workerCount := (zS1 c p).workerCount + 1,
                 workers := (zS1 c p).workers ++ [((zS1 c p).nextId, Phase.atTop)],
                 nextId := (zS1 c p).nextId + 1 }

def zS3 (c : Nat) (p : GoVal) : PoolState :=
  { zS2 c p with lockHolder := some 0,
                 workers := setPhase (zS2 c p).workers 0 Phase.checkedTop }

def zS4 (c : Nat) (p : GoVal) : PoolState :=
  { zS3 c p with q := ((zS3 c p).q.Pop (exclOf (zS3 c p).currentlyWorking)).2,
                 lockHolder := none,
                 workers := setPhase (zS3 c p).workers 0 Phase.atTop }

theorem reach_zS4 (c : Nat) (p : GoVal) : Reach 1 (zS4 c p) :=
  Reach.step
    (Reach.step
      (Reach.step
        (Reach.step Reach.init (PStep.push zS0 zeroResource c p))
        (PStep.spawn (zS1 c p) rfl Nat.zero_lt_one
          (List.cons_ne_nil (convert zeroResource) [])))
      (PStep.enterTop (zS2 c p) 0 (List.mem_cons_self (0, Phase.atTop) []) rfl rfl
        (List.cons_ne_nil (convert zeroResource) [])))
    (PStep.popZero (zS3 c p) 0 (List.mem_cons_self (0, Phase.checkedTop) []) rfl)

/-- Claim C10: a Push of the zero-value Resource creates a genuine pending
task (Pop yields the zero target together with a real per-submitter map),
but the zero-value comparison in the worker classifies it as nothing to do: in
the reachable state after the worker pops it, the worker is back at the
loop top without ever entering the get/merge/write section, the key is
gone from the pending sequence, and the cache entry is still in the map. -/
theorem c10_zero_resource_dropped (c : Nat) (p : GoVal) :
    ((emptyQueue.Push zeroResource c p).Pop (exclOf [])).1 =
      (zeroResource, some [(c, p)]) ∧
    ∃ s, Reach 1 s ∧ s.workers = [(0, Phase.atTop)] ∧
      s.q.cache (convert zeroResource) =
        some { cacheResource := zeroResource, perControllerStatus := [(c, p)] } ∧
      s.q.tasks = [] :=
  ⟨rfl, zS4 c p, reach_zS4 c p, rfl, rfl, rfl⟩

end ResourceLock
